import Mathlib

set_option maxHeartbeats 1000000

/-!
Verification development for the QMC repository: two QuTiP notebooks (a
one-dimensional Doppler-cooling Monte Carlo wavefunction simulation and a
Rydberg-array Schrödinger evolution), plus a model of the quantum-trajectory
integrator that the notebooks invoke through the library calls
`mcsolve`/`sesolve`.
-/

open scoped Matrix

noncomputable section

namespace QMC

/-- Squared Euclidean norm `‖ψ‖²` of a complex state vector. -/
def normSqV {ι : Type} [Fintype ι] [DecidableEq ι] (ψ : ι → ℂ) : ℝ := ∑ i, Complex.normSq (ψ i)

/-- Renormalization `ψ ← ψ/‖ψ‖` of a state vector. -/
def normalizeV {ι : Type} [Fintype ι] [DecidableEq ι] (ψ : ι → ℂ) : ι → ℂ :=
  fun i => (Real.sqrt (normSqV ψ) : ℂ)⁻¹ * ψ i

/-- Expectation value `⟨ψ|O|ψ⟩` (real part) of an observable in state ψ. -/
def expval {ι : Type} [Fintype ι] [DecidableEq ι] (O : Matrix ι ι ℂ) (ψ : ι → ℂ) : ℝ :=
  (star ψ ⬝ᵥ O.mulVec ψ).re

namespace Doppler

/-- Momentum-window parameter of the Doppler notebook: `nmax = 50`. -/
def nmax : ℕ := 50

/-- Hilbert-space dimension of the momentum factor: `2*nmax + 1`. -/
def pdim : ℕ := 2 * nmax + 1

/-- Atomic mass constant `mRb` of the notebook. -/
def mRb : ℝ := 3.8175409e-26

/-- Reduced Planck constant as used in the notebook. -/
def hbar : ℝ := 1.05457e-34

/-- `hbar/mRb`, the precomputed ratio of the notebook. -/
def hbarOvermRb : ℝ := hbar / mRb

/-- Wavenumber `k = 2π/589nm` of the notebook. -/
def k : ℝ := 2 * Real.pi / 589e-9

/-- Linewidth `Gamma = 200*hbar*k²/mRb` of the notebook. -/
def Gamma : ℝ := 200 * hbar * k ^ 2 / mRb

/-- Rabi frequency `Omega = Gamma/2` of the notebook. -/
def Omega : ℝ := Gamma / 2

/-- Detuning `delta = -Gamma/2` of the notebook. -/
def delta : ℝ := -Gamma / 2

/-- QuTiP `basis(n, i)`: the i-th computational basis ket. -/
def basisK (n i : ℕ) : Fin n → ℂ := fun j => if (j : ℕ) = i then 1 else 0

/-- Tensor product of an internal ket with a momentum ket. -/
def tensorK (v : Fin 2 → ℂ) (w : Fin pdim → ℂ) : Fin 2 × Fin pdim → ℂ :=
  fun p => v p.1 * w p.2

/-- Initial state `psi0 = tensor(basis(2,0), basis(2*nmax+1, nmax))`. -/
def psi0 : Fin 2 × Fin pdim → ℂ := tensorK (basisK 2 0) (basisK pdim nmax)

/-- QuTiP `sigmax()`: the Pauli-x matrix `[[0,1],[1,0]]`. -/
def sigmax : Matrix (Fin 2) (Fin 2) ℂ := fun i j => if i = j then 0 else 1

/-- QuTiP `tunneling(N, 1)`: ones on the first sub- and superdiagonal. -/
def tunneling (N : ℕ) : Matrix (Fin N) (Fin N) ℂ :=
  fun i j => if (i : ℕ) + 1 = j ∨ (j : ℕ) + 1 = i then 1 else 0

/-- QuTiP `charge(n)`: the diagonal matrix `diag(-n, …, n)` on `2n+1` levels. -/
def charge (n : ℕ) : Matrix (Fin (2 * n + 1)) (Fin (2 * n + 1)) ℂ :=
  Matrix.diagonal fun i => ((i : ℕ) : ℂ) - (n : ℂ)

/-- Kronecker product of a 2×2 internal operator with a momentum operator,
on the tensor-product index set `Fin 2 × Fin pdim`. -/
def tensorOp (A : Matrix (Fin 2) (Fin 2) ℂ) (B : Matrix (Fin pdim) (Fin pdim) ℂ) :
    Matrix (Fin 2 × Fin pdim) (Fin 2 × Fin pdim) ℂ :=
  fun p q => A p.1 q.1 * B p.2 q.2

/-- `coupling = tensor(sigmax(), tunneling(2*nmax + 1, 1))`. -/
def coupling : Matrix (Fin 2 × Fin pdim) (Fin 2 × Fin pdim) ℂ :=
  tensorOp sigmax (tunneling pdim)

/-- `momentum = tensor(qeye(2), charge(nmax))` (here `pdim = 2*nmax+1`). -/
def momentum : Matrix (Fin 2 × Fin pdim) (Fin 2 × Fin pdim) ℂ :=
  tensorOp 1 (charge nmax)

/-- `basis(2, 1).proj()`: the projector `|e⟩⟨e|` on the internal factor. -/
def projE : Matrix (Fin 2) (Fin 2) ℂ := fun i j => if i = 1 ∧ j = 1 then 1 else 0

/-- `Pe = tensor(basis(2, 1).proj(), qeye(2*nmax + 1))`. -/
def Pe : Matrix (Fin 2 × Fin pdim) (Fin 2 × Fin pdim) ℂ := tensorOp projE 1

/-- `decay = Qobj([[0, 1], [0, 0]])`, the lowering operator `|g⟩⟨e|`. -/
def decay : Matrix (Fin 2) (Fin 2) ℂ := fun i j => if i = 0 ∧ j = 1 then 1 else 0

/-- `qdiags(np.ones(2*nmax), 1)`: ones on the superdiagonal. -/
def shiftUp : Matrix (Fin pdim) (Fin pdim) ℂ :=
  fun i j => if (i : ℕ) + 1 = j then 1 else 0

/-- `qdiags(np.ones(2*nmax), -1)`: ones on the subdiagonal. -/
def shiftDown : Matrix (Fin pdim) (Fin pdim) ℂ :=
  fun i j => if (j : ℕ) + 1 = i then 1 else 0

/-- Jump operator `C0 = sqrt(3/5 * Gamma) * tensor(decay, qeye(2*nmax + 1))`. -/
def C0 : Matrix (Fin 2 × Fin pdim) (Fin 2 × Fin pdim) ℂ :=
  Real.sqrt (3 / 5 * Gamma) • tensorOp decay 1

/-- Jump operator `Cmk = sqrt(1/5 * Gamma) * tensor(decay, qdiags(ones, 1))`. -/
def Cmk : Matrix (Fin 2 × Fin pdim) (Fin 2 × Fin pdim) ℂ :=
  Real.sqrt (1 / 5 * Gamma) • tensorOp decay shiftUp

/-- Jump operator `Cpk = sqrt(1/5 * Gamma) * tensor(decay, qdiags(ones, -1))`. -/
def Cpk : Matrix (Fin 2 × Fin pdim) (Fin 2 × Fin pdim) ℂ :=
  Real.sqrt (1 / 5 * Gamma) • tensorOp decay shiftDown

/-- The jump-operator list `Cs = [C0, Cmk, Cpk]`. -/
def Cs : List (Matrix (Fin 2 × Fin pdim) (Fin 2 × Fin pdim) ℂ) := [C0, Cmk, Cpk]

/-- The notebook Hamiltonian
`H = hbarOvermRb*(k*momentum)**2/2 + Omega/2 * coupling - delta * Pe`. -/
def H : Matrix (Fin 2 × Fin pdim) (Fin 2 × Fin pdim) ℂ :=
  (hbarOvermRb / 2) • (k • momentum) ^ 2 + (Omega / 2) • coupling - delta • Pe

/-- Sum of `Ci† Ci` over the notebook's jump operators. -/
def CdagCsum : Matrix (Fin 2 × Fin pdim) (Fin 2 × Fin pdim) ℂ :=
  C0ᴴ * C0 + Cmkᴴ * Cmk + Cpkᴴ * Cpk

end Doppler

/-- Modelled from the spec: the effective Hamiltonian
`H_eff = H − (i/2)·Σ_i Ci† Ci` that the Monte Carlo wavefunction integrator
(the `mcsolve` library call, whose source is not part of this repository)
derives once from `H` and the jump-operator list. -/
def effectiveHamiltonian {ι : Type} [Fintype ι] [DecidableEq ι] (H : Matrix ι ι ℂ)
    (Cs : List (Matrix ι ι ℂ)) : Matrix ι ι ℂ :=
  H - (Complex.I / 2) • (Cs.map fun C => Cᴴ * C).sum

/-- Modelled from the spec: one deterministic evolution step of duration `dt`,
the exact solution of `dψ/dt = −i H_eff ψ` that the integrator's ODE solver
approximates. -/
def detStep {ι : Type} [Fintype ι] [DecidableEq ι] (Heff : Matrix ι ι ℂ) (dt : ℝ) (ψ : ι → ℂ) :
    ι → ℂ :=
  (NormedSpace.exp ℂ ((-(Complex.I * (dt : ℂ))) • Heff)).mulVec ψ

/-- Deterministic evolution across a list of step durations. -/
def detEvolve {ι : Type} [Fintype ι] [DecidableEq ι] (Heff : Matrix ι ι ℂ) (dts : List ℝ)
    (ψ : ι → ℂ) : ι → ℂ :=
  dts.foldl (fun φ dt => detStep Heff dt φ) ψ

/-- Modelled from the spec: the weight `⟨ψ|Ci†Ci|ψ⟩ = ‖Ci ψ‖²` of jump
channel `Ci` in state `ψ`. -/
def channelWeight {ι : Type} [Fintype ι] [DecidableEq ι] (C : Matrix ι ι ℂ) (ψ : ι → ℂ) : ℝ :=
  normSqV (C.mulVec ψ)

/-- The list of channel weights for a jump-operator list. -/
def channelWeights {ι : Type} [Fintype ι] [DecidableEq ι] (Cs : List (Matrix ι ι ℂ))
    (ψ : ι → ℂ) : List ℝ :=
  Cs.map fun C => channelWeight C ψ

/-- Modelled from the spec: the categorical draw over a weight list — the
least index whose cumulative weight exceeds the target value. -/
def selectFrom : List ℝ → ℝ → ℕ
  | [], _ => 0
  | w :: ws, t => if t < w then 0 else selectFrom ws (t - w) + 1

/-- Modelled from the spec: channel selection from one uniform draw
`u ∈ [0,1)`, scaled by the total weight. -/
def selectChannel (ws : List ℝ) (u : ℝ) : ℕ := selectFrom ws (u * ws.sum)

/-- Modelled from the spec: apply a jump — draw the channel categorically,
replace `ψ ← Ci ψ`, then renormalize `ψ ← ψ/‖ψ‖`. -/
def applyJump {ι : Type} [Fintype ι] [DecidableEq ι] (Cs : List (Matrix ι ι ℂ)) (u : ℝ)
    (ψ : ι → ℂ) : ι → ℂ :=
  normalizeV ((Cs.getD (selectChannel (channelWeights Cs ψ) u) 0).mulVec ψ)

/-- Per-trajectory integrator state: current (unnormalized) state vector, the
current uniform jump threshold, and the number of jumps so far (which indexes
the random streams). -/
structure McState (ι : Type) where
  psi : ι → ℂ
  thr : ℝ
  jumps : ℕ

/-- Modelled from the spec: one output-interval step of the Monte Carlo
wavefunction integrator. The state is evolved deterministically under
`H_eff` for `dt`; if `‖ψ‖²` has fallen below the current threshold `r`, the
jump located within this integration step fires: a channel is drawn
categorically from the weights `⟨ψ|Ci†Ci|ψ⟩`, the jump is applied and the
state renormalized, and a fresh threshold is drawn. The step fails (`none`,
the spec's malformed-model error) when the total jump weight vanishes. -/
def mcStep {ι : Type} [Fintype ι] [DecidableEq ι] (Heff : Matrix ι ι ℂ)
    (Cs : List (Matrix ι ι ℂ)) (rs us : ℕ → ℝ) (dt : ℝ)
    (st : McState ι) : Option (McState ι) :=
  if normSqV (detStep Heff dt st.psi) < st.thr then
    if 0 < (channelWeights Cs (detStep Heff dt st.psi)).sum then
      some ⟨applyJump Cs (us st.jumps) (detStep Heff dt st.psi),
        rs (st.jumps + 1), st.jumps + 1⟩
    else none
  else some ⟨detStep Heff dt st.psi, st.thr, st.jumps⟩

/-- Iterate `mcStep` over an interval grid, returning the final state. -/
def runStates {ι : Type} [Fintype ι] [DecidableEq ι] (Heff : Matrix ι ι ℂ)
    (Cs : List (Matrix ι ι ℂ)) (rs us : ℕ → ℝ) :
    List ℝ → McState ι → Option (McState ι)
  | [], st => some st
  | dt :: rest, st =>
    match mcStep Heff Cs rs us dt st with
    | none => none
    | some st1 => runStates Heff Cs rs us rest st1

/-- Modelled from the spec: iterate `mcStep` over the output grid, recording
at each output time the renormalized state vector. -/
def mcRecords {ι : Type} [Fintype ι] [DecidableEq ι] (Heff : Matrix ι ι ℂ)
    (Cs : List (Matrix ι ι ℂ)) (rs us : ℕ → ℝ) :
    List ℝ → McState ι → Option (List (ι → ℂ))
  | [], _ => some []
  | dt :: rest, st =>
    match mcStep Heff Cs rs us dt st with
    | none => none
    | some st1 => (mcRecords Heff Cs rs us rest st1).map
        fun l => normalizeV st1.psi :: l

/-- Modelled from the spec: one `mcsolve` trajectory over the interval grid
`dts` (differences of the output-time list), driven by the threshold stream
`rs` and the channel-draw stream `us`; returns the recorded states at the
output times, or `none` on the spec's malformed-model error. -/
def mcsolveTraj {ι : Type} [Fintype ι] [DecidableEq ι] (H : Matrix ι ι ℂ)
    (Cs : List (Matrix ι ι ℂ)) (ψ0 : ι → ℂ) (dts : List ℝ)
    (rs us : ℕ → ℝ) : Option (List (ι → ℂ)) :=
  mcRecords (effectiveHamiltonian H Cs) Cs rs us dts ⟨ψ0, rs 0, 0⟩

/-- Modelled from the spec: the `sesolve` library call — deterministic
unitary Schrödinger propagation under `H`, recording the state at each
output time. -/
def seRecords {ι : Type} [Fintype ι] [DecidableEq ι] (H : Matrix ι ι ℂ) :
    List ℝ → (ι → ℂ) → List (ι → ℂ)
  | [], _ => []
  | dt :: rest, ψ => detStep H dt ψ :: seRecords H rest (detStep H dt ψ)

namespace Rydberg

/-- Number of atoms in the Rydberg notebook: `Natoms = 9`. -/
def Natoms : ℕ := 9

/-- Rabi frequency `Omega = 2*np.pi * 60*36/560 / 2` of the notebook. -/
def Omega : ℝ := 2 * Real.pi * 60 * 36 / 560 / 2

/-- Detuning `Delta = 2*np.pi * 0` of the notebook. -/
def Delta : ℝ := 2 * Real.pi * 0

/-- Van der Waals coefficient `C6 = -2*np.pi * 231529` of the notebook. -/
def C6 : ℝ := -(2 * Real.pi * 231529)

/-- Site spacing `a = 5.74` of the notebook. -/
def a : ℝ := 5.74

/-- Configuration basis of the `Natoms`-site chain of two-level atoms. -/
abbrev Cfg := Fin Natoms → Fin 2

/-- Pauli-x matrix on one site. -/
def sigmaxR : Matrix (Fin 2) (Fin 2) ℝ := fun i j => if i = j then 0 else 1

/-- Number operator `(1 - sigmaz())/2 = |r⟩⟨r|` on one site. -/
def nOp : Matrix (Fin 2) (Fin 2) ℝ := fun i j => if i = 1 ∧ j = 1 then 1 else 0

/-- Tensor product placing the single-site operator `M` at site `i` and the
identity everywhere else (the notebook's `dumoperator` construction). -/
def fullOp (M : Matrix (Fin 2) (Fin 2) ℝ) (i : Fin Natoms) : Matrix Cfg Cfg ℝ :=
  fun x y => ∏ s, (if s = i then M else 1) (x s) (y s)

/-- `fullsigmax[i] = tensor(1, …, sigmax() at i, …, 1)`. -/
def fullsigmax (i : Fin Natoms) : Matrix Cfg Cfg ℝ := fullOp sigmaxR i

/-- `fullnumberop[i] = tensor(1, …, (1-sigmaz())/2 at i, …, 1)`. -/
def fullnumberop (i : Fin Natoms) : Matrix Cfg Cfg ℝ := fullOp nOp i

/-- The driving part of the notebook Hamiltonian,
`Omega/2 * np.sum(fullsigmax) - Delta * np.sum(fullnumberop)`. -/
def H0 : Matrix Cfg Cfg ℝ :=
  (Omega / 2) • (∑ i, fullsigmax i) - Delta • (∑ i, fullnumberop i)

/-- The contribution added to `H` by the notebook's interaction loop for the
ordered site pair `(j, i)` with `i < j`: the loop body adds
`-C6/(a * np.abs(i - j))**6 * fullnumberop[i]*fullnumberop[j]` under the
guard `abs(i - j) == 1`, and nothing otherwise. -/
def interactionTerm (j i : Fin Natoms) : Matrix Cfg Cfg ℝ :=
  if ((i : ℤ) - (j : ℤ)).natAbs = 1 then
    (-C6 / (a * (((i : ℤ) - (j : ℤ)).natAbs : ℝ)) ^ 6) •
      (fullnumberop i * fullnumberop j)
  else 0

/-- The notebook Hamiltonian after the double loop
`for j in range(Natoms): for i in range(j): …` has been folded in. -/
def H : Matrix Cfg Cfg ℝ :=
  H0 + ∑ j, ∑ i ∈ Finset.univ.filter (fun i => i < j), interactionTerm j i

end Rydberg

namespace Dims

/-- QuTiP dims of `basis(n, i)`: a single subsystem of dimension `n`. -/
def basisDims (n : ℕ) : List ℕ := [n]

/-- QuTiP dims of `qeye(n)`. -/
def qeyeDims (n : ℕ) : List ℕ := [n]

/-- QuTiP dims of `sigmax()`. -/
def sigmaxDims : List ℕ := [2]

/-- QuTiP dims of `tunneling(N, 1)`. -/
def tunnelingDims (N : ℕ) : List ℕ := [N]

/-- QuTiP dims of `charge(n)`: `2n+1` levels. -/
def chargeDims (n : ℕ) : List ℕ := [2 * n + 1]

/-- QuTiP dims of `basis(2, 1).proj()`. -/
def projDims : List ℕ := [2]

/-- QuTiP dims of `Qobj([[0, 1], [0, 0]])`. -/
def decayDims : List ℕ := [2]

/-- QuTiP dims of `qdiags(diag, offset)` for a diagonal of length `len` at
offset `±off`: a square matrix of size `len + off`. -/
def qdiagsDims (len off : ℕ) : List ℕ := [len + off]

/-- QuTiP `tensor`: the dims of a tensor product concatenate the subsystem
dims of the factors. -/
def tensorDims (ds : List (List ℕ)) : List ℕ := ds.flatten

/-- Dims of the Doppler notebook's `psi0 = tensor(basis(2,0), basis(2*nmax+1, nmax))`. -/
def psi0Dims : List ℕ := tensorDims [basisDims 2, basisDims (2 * Doppler.nmax + 1)]

/-- Dims of `coupling = tensor(sigmax(), tunneling(2*nmax+1, 1))`. -/
def couplingDims : List ℕ := tensorDims [sigmaxDims, tunnelingDims (2 * Doppler.nmax + 1)]

/-- Dims of `momentum = tensor(qeye(2), charge(nmax))`. -/
def momentumDims : List ℕ := tensorDims [qeyeDims 2, chargeDims Doppler.nmax]

/-- Dims of `Pe = tensor(basis(2,1).proj(), qeye(2*nmax+1))`. -/
def PeDims : List ℕ := tensorDims [projDims, qeyeDims (2 * Doppler.nmax + 1)]

/-- Dims of `C0 = sqrt(3/5*Gamma) * tensor(decay, qeye(2*nmax+1))` (scalar
multiplication preserves dims). -/
def C0Dims : List ℕ := tensorDims [decayDims, qeyeDims (2 * Doppler.nmax + 1)]

/-- Dims of `Cmk = sqrt(1/5*Gamma) * tensor(decay, qdiags(np.ones(2*nmax), 1))`. -/
def CmkDims : List ℕ := tensorDims [decayDims, qdiagsDims (2 * Doppler.nmax) 1]

/-- Dims of `Cpk = sqrt(1/5*Gamma) * tensor(decay, qdiags(np.ones(2*nmax), -1))`. -/
def CpkDims : List ℕ := tensorDims [decayDims, qdiagsDims (2 * Doppler.nmax) 1]

/-- Dims of `H = hbarOvermRb*(k*momentum)**2/2 + Omega/2*coupling - delta*Pe`:
operator sums, products and scalar multiples preserve QuTiP dims, so `H`
carries the dims of its operands. -/
def HDims : List ℕ := momentumDims

/-- Dims of the observable `momentum**2` passed as `e_ops`. -/
def eOpDims : List ℕ := momentumDims

/-- Modelled from the spec: the dimension-and-validity summary of an
`mcsolve` call that the integrator's validation layer inspects before any
trajectory work (operator dims, squared norm of `ψ0`, output times). -/
structure MCInputs where
  Hdims : List ℕ
  psiDims : List ℕ
  cDims : List (List ℕ)
  oDims : List (List ℕ)
  psiNormSq : ℚ
  times : List ℚ

/-- Modelled from the spec: dimension compatibility between `H`, `ψ0`, the
jump operators and the observables. -/
def dimsOk (inp : MCInputs) : Bool :=
  decide (inp.psiDims = inp.Hdims)
    && inp.cDims.all (fun d => decide (d = inp.Hdims))
    && inp.oDims.all (fun d => decide (d = inp.Hdims))

/-- Modelled from the spec: `ψ0` must be normalized. -/
def normOk (inp : MCInputs) : Bool := decide (inp.psiNormSq = 1)

/-- Modelled from the spec: the output times must be strictly increasing. -/
def timesOk (inp : MCInputs) : Bool := decide (List.Chain' (· < ·) inp.times)

/-- Modelled from the spec: input validation of the integrator, performed
before any trajectory work begins; malformed input yields a descriptive
`DimensionError`/`ValidationError`. -/
def validate (inp : MCInputs) : Except String Unit :=
  if ¬ dimsOk inp then .error "DimensionError: mismatched matrix dimensions"
  else if ¬ normOk inp then .error "ValidationError: initial state is not normalized"
  else if ¬ timesOk inp then .error "ValidationError: output times are not strictly increasing"
  else .ok ()

/-- Modelled from the spec: the integrator performs the trajectory work
(`run`) only after validation succeeds; on malformed input the error is
surfaced to the caller and no trajectory is integrated. -/
def mcsolveGuarded {α : Type} (run : MCInputs → α) (inp : MCInputs) :
    Except String α :=
  match validate inp with
  | .error e => .error e
  | .ok _ => .ok (run inp)

end Dims

/-! ### Concrete one-dimensional instances used to exercise the integrator -/

/-- A concrete normalized one-dimensional state. -/
def wPsi : Fin 1 → ℂ := fun _ => 1

/-- A concrete uniform random stream, constantly `1/2`. -/
def wHalf : ℕ → ℝ := fun _ => 1 / 2

/-- A concrete (zero) Hamiltonian on one dimension. -/
def wH : Matrix (Fin 1) (Fin 1) ℂ := 0

/-- A concrete one-element jump-operator list (the identity channel). -/
def wCs : List (Matrix (Fin 1) (Fin 1) ℂ) := [1]

/-- A concrete malformed solver input: `ψ0` dims `[3]` against `H` dims `[2]`. -/
def wBadInp : Dims.MCInputs := ⟨[2], [3], [], [], 1, []⟩

/-- A concrete trajectory-runner. -/
def wRun1 : Dims.MCInputs → ℕ := fun _ => 0

/-- Another concrete trajectory-runner, different from `wRun1`. -/
def wRun2 : Dims.MCInputs → ℕ := fun _ => 1

/-! ### Helper lemmas on norms and renormalization -/

theorem normSqV_nonneg {ι : Type} [Fintype ι] [DecidableEq ι] (ψ : ι → ℂ) : 0 ≤ normSqV ψ :=
  Finset.sum_nonneg fun _ _ => Complex.normSq_nonneg _

theorem normSqV_eq_zero_iff {ι : Type} [Fintype ι] [DecidableEq ι] (ψ : ι → ℂ) : normSqV ψ = 0 ↔ ψ = 0 := by
  unfold normSqV
  rw [Finset.sum_eq_zero_iff_of_nonneg fun i _ => Complex.normSq_nonneg _]
  constructor
  · intro h
    funext i
    exact Complex.normSq_eq_zero.mp (h i (Finset.mem_univ i))
  · intro h i _
    rw [h]
    simp

theorem normSqV_normalizeV {ι : Type} [Fintype ι] [DecidableEq ι] (ψ : ι → ℂ) (h : normSqV ψ ≠ 0) :
    normSqV (normalizeV ψ) = 1 := by
  have h0 : 0 ≤ normSqV ψ := normSqV_nonneg ψ
  have key : ∀ i, Complex.normSq (normalizeV ψ i) =
      (normSqV ψ)⁻¹ * Complex.normSq (ψ i) := by
    intro i
    unfold normalizeV
    rw [Complex.normSq_mul, Complex.normSq_inv, Complex.normSq_ofReal,
      Real.mul_self_sqrt h0]
  unfold normSqV
  rw [Finset.sum_congr rfl fun i _ => key i, ← Finset.mul_sum]
  exact inv_mul_cancel₀ h

theorem normSqV_normalizeV_ne_zero {ι : Type} [Fintype ι] [DecidableEq ι] (ψ : ι → ℂ) (h : normSqV ψ ≠ 0) :
    normSqV (normalizeV ψ) ≠ 0 := by
  rw [normSqV_normalizeV ψ h]
  exact one_ne_zero

theorem normalizeV_of_normSq_one {ι : Type} [Fintype ι] [DecidableEq ι] (ψ : ι → ℂ) (h : normSqV ψ = 1) :
    normalizeV ψ = ψ := by
  funext i
  unfold normalizeV
  rw [h, Real.sqrt_one, Complex.ofReal_one, inv_one, one_mul]

theorem star_dotProduct_self {ι : Type} [Fintype ι] [DecidableEq ι] (ψ : ι → ℂ) :
    star ψ ⬝ᵥ ψ = (normSqV ψ : ℂ) := by
  unfold normSqV
  rw [Complex.ofReal_sum]
  unfold Matrix.dotProduct
  refine Finset.sum_congr rfl fun i _ => ?_
  rw [Pi.star_apply, Complex.star_def, ← Complex.normSq_eq_conj_mul_self]

/-! ### Deterministic evolution: invertibility and unitarity -/

theorem exp_neg_mul_exp {ι : Type} [Fintype ι] [DecidableEq ι] (A : Matrix ι ι ℂ) :
    NormedSpace.exp ℂ (-A) * NormedSpace.exp ℂ A = 1 := by
  rw [← Matrix.exp_add_of_commute ℂ (-A) A (Commute.refl A).neg_left,
    neg_add_cancel, NormedSpace.exp_zero]

theorem detStep_normSqV {ι : Type} [Fintype ι] [DecidableEq ι] (H : Matrix ι ι ℂ)
    (hH : H.IsHermitian) (dt : ℝ) (ψ : ι → ℂ) :
    normSqV (detStep H dt ψ) = normSqV ψ := by
  set A := (-(Complex.I * (dt : ℂ))) • H with hAdef
  have hstar : Aᴴ = -A := by
    rw [hAdef, Matrix.conjTranspose_smul, hH.eq, ← neg_smul]
    congr 1
    simp [Complex.star_def, map_mul, Complex.conj_I, Complex.conj_ofReal]
  have hUU : (NormedSpace.exp ℂ A)ᴴ * NormedSpace.exp ℂ A = 1 := by
    rw [← Matrix.exp_conjTranspose, hstar, exp_neg_mul_exp]
  have hdot : star (detStep H dt ψ) ⬝ᵥ detStep H dt ψ = star ψ ⬝ᵥ ψ := by
    unfold detStep
    rw [Matrix.star_mulVec, Matrix.dotProduct_mulVec, Matrix.vecMul_vecMul,
      hUU, Matrix.vecMul_one]
  rw [star_dotProduct_self, star_dotProduct_self] at hdot
  exact_mod_cast hdot

theorem detStep_normSqV_ne_zero {ι : Type} [Fintype ι] [DecidableEq ι] (Heff : Matrix ι ι ℂ)
    (dt : ℝ) (ψ : ι → ℂ) (h : normSqV ψ ≠ 0) :
    normSqV (detStep Heff dt ψ) ≠ 0 := by
  rw [Ne, normSqV_eq_zero_iff] at h ⊢
  intro h0
  apply h
  unfold detStep at h0
  have h1 := congrArg
    ((NormedSpace.exp ℂ (-((-(Complex.I * (dt : ℂ))) • Heff))).mulVec) h0
  rwa [Matrix.mulVec_mulVec, exp_neg_mul_exp, Matrix.one_mulVec,
    Matrix.mulVec_zero] at h1

theorem effectiveHamiltonian_nil {ι : Type} [Fintype ι] [DecidableEq ι] (H : Matrix ι ι ℂ) :
    effectiveHamiltonian H [] = H := by
  unfold effectiveHamiltonian
  simp

/-! ### The categorical draw over channel weights -/

theorem selectFrom_lt_length (ws : List ℝ) (t : ℝ) (hws : ∀ w ∈ ws, 0 ≤ w)
    (ht : 0 ≤ t) (htlt : t < ws.sum) : selectFrom ws t < ws.length := by
  induction ws generalizing t with
  | nil =>
    simp only [List.sum_nil] at htlt
    linarith
  | cons w ws ih =>
    unfold selectFrom
    by_cases h : t < w
    · rw [if_pos h]
      simp
    · rw [if_neg h]
      simp only [List.length_cons]
      exact Nat.succ_lt_succ (ih (t - w)
        (fun x hx => hws x (List.mem_cons_of_mem w hx))
        (by linarith [not_lt.mp h])
        (by rw [List.sum_cons] at htlt; linarith))

theorem selectFrom_eq_iff (ws : List ℝ) (t : ℝ) (i : ℕ) (hws : ∀ w ∈ ws, 0 ≤ w)
    (ht : 0 ≤ t) (hi : i < ws.length) :
    selectFrom ws t = i ↔ (ws.take i).sum ≤ t ∧ t < (ws.take (i + 1)).sum := by
  induction ws generalizing t i with
  | nil => simp at hi
  | cons w ws ih =>
    unfold selectFrom
    cases i with
    | zero =>
      by_cases h : t < w <;> simp [h, ht]
    | succ i =>
      have hi' : i < ws.length := by
        simp only [List.length_cons] at hi
        omega
      by_cases h : t < w
      · rw [if_pos h]
        constructor
        · intro h0
          exact absurd h0 (by omega)
        · rintro ⟨h1, _⟩
          exfalso
          have h2 : 0 ≤ (ws.take i).sum :=
            List.sum_nonneg fun x hx =>
              hws x (List.mem_cons_of_mem w (List.mem_of_mem_take hx))
          rw [List.take_succ_cons, List.sum_cons] at h1
          linarith
      · rw [if_neg h]
        have hIH := ih (t - w) i
          (fun x hx => hws x (List.mem_cons_of_mem w hx))
          (by linarith [not_lt.mp h]) hi'
        rw [List.take_succ_cons, List.take_succ_cons, List.sum_cons,
          List.sum_cons]
        constructor
        · intro hS
          have hsel : selectFrom ws (t - w) = i := by omega
          have h2 := hIH.mp hsel
          exact ⟨by linarith [h2.1], by linarith [h2.2]⟩
        · rintro ⟨h1, h2⟩
          have h3 := hIH.mpr ⟨by linarith, by linarith⟩
          omega

theorem selectFrom_getD_pos (ws : List ℝ) (t : ℝ) (hws : ∀ w ∈ ws, 0 ≤ w)
    (ht : 0 ≤ t) (htlt : t < ws.sum) :
    0 < ws.getD (selectFrom ws t) 0 := by
  have hlen := selectFrom_lt_length ws t hws ht htlt
  have hiff := (selectFrom_eq_iff ws t (selectFrom ws t) hws ht hlen).mp rfl
  have hsum := List.sum_take_succ ws (selectFrom ws t) hlen
  rw [List.getD_eq_getElem ws 0 hlen]
  rw [hsum] at hiff
  linarith [hiff.1, hiff.2]

theorem channelWeights_nonneg {ι : Type} [Fintype ι] [DecidableEq ι] (Cs : List (Matrix ι ι ℂ))
    (ψ : ι → ℂ) : ∀ w ∈ channelWeights Cs ψ, 0 ≤ w := by
  intro w hw
  unfold channelWeights at hw
  obtain ⟨C, _, rfl⟩ := List.mem_map.mp hw
  exact normSqV_nonneg _

theorem applyJump_normSqV {ι : Type} [Fintype ι] [DecidableEq ι] (Cs : List (Matrix ι ι ℂ))
    (u : ℝ) (ψ : ι → ℂ) (hu : 0 ≤ u ∧ u < 1)
    (hW : 0 < (channelWeights Cs ψ).sum) :
    normSqV (applyJump Cs u ψ) = 1 := by
  have ht : 0 ≤ u * (channelWeights Cs ψ).sum := mul_nonneg hu.1 (le_of_lt hW)
  have htlt : u * (channelWeights Cs ψ).sum < (channelWeights Cs ψ).sum := by
    nlinarith [hu.2, hW]
  have hnn : ∀ w ∈ channelWeights Cs ψ, 0 ≤ w := channelWeights_nonneg Cs ψ
  have hpos := selectFrom_getD_pos (channelWeights Cs ψ)
    (u * (channelWeights Cs ψ).sum) hnn ht htlt
  have hlen := selectFrom_lt_length (channelWeights Cs ψ)
    (u * (channelWeights Cs ψ).sum) hnn ht htlt
  have hlen2 : selectFrom (channelWeights Cs ψ)
      (u * (channelWeights Cs ψ).sum) < Cs.length := by
    have hl : (channelWeights Cs ψ).length = Cs.length := by
      unfold channelWeights
      exact List.length_map Cs _
    omega
  have hgd : (channelWeights Cs ψ).getD
      (selectFrom (channelWeights Cs ψ) (u * (channelWeights Cs ψ).sum)) 0 =
      normSqV ((Cs.getD
        (selectFrom (channelWeights Cs ψ) (u * (channelWeights Cs ψ).sum))
        0).mulVec ψ) := by
    rw [List.getD_eq_getElem _ 0 hlen, List.getD_eq_getElem Cs 0 hlen2]
    simp [channelWeights, channelWeight]
  unfold applyJump
  apply normSqV_normalizeV
  have hsel : selectChannel (channelWeights Cs ψ) u =
      selectFrom (channelWeights Cs ψ) (u * (channelWeights Cs ψ).sum) := rfl
  rw [hsel]
  rw [hgd] at hpos
  exact ne_of_gt hpos

/-! ### The channel weight as a quadratic form -/

theorem channelWeight_eq_quadForm {ι : Type} [Fintype ι] [DecidableEq ι] (C : Matrix ι ι ℂ)
    (ψ : ι → ℂ) :
    star ψ ⬝ᵥ (Cᴴ * C).mulVec ψ = (channelWeight C ψ : ℂ) := by
  rw [← Matrix.mulVec_mulVec, Matrix.dotProduct_mulVec, ← Matrix.star_mulVec,
    star_dotProduct_self]
  rfl

/-! ### Norm preservation along a trajectory -/

theorem mcStep_psi_ne_zero {ι : Type} [Fintype ι] [DecidableEq ι] (Heff : Matrix ι ι ℂ)
    (Cs : List (Matrix ι ι ℂ)) (rs us : ℕ → ℝ)
    (hus : ∀ j, 0 ≤ us j ∧ us j < 1) (dt : ℝ) (st st1 : McState ι)
    (hψ : normSqV st.psi ≠ 0) (h : mcStep Heff Cs rs us dt st = some st1) :
    normSqV st1.psi ≠ 0 := by
  unfold mcStep at h
  split_ifs at h with h1 h2
  · injection h with h3
    rw [← h3]
    rw [applyJump_normSqV Cs (us st.jumps) _ (hus st.jumps) h2]
    exact one_ne_zero
  · injection h with h3
    rw [← h3]
    exact detStep_normSqV_ne_zero Heff dt st.psi hψ

theorem mcRecords_norm {ι : Type} [Fintype ι] [DecidableEq ι] (Heff : Matrix ι ι ℂ)
    (Cs : List (Matrix ι ι ℂ)) (rs us : ℕ → ℝ)
    (hus : ∀ j, 0 ≤ us j ∧ us j < 1) (dts : List ℝ) :
    ∀ (st : McState ι) (recs : List (ι → ℂ)), normSqV st.psi ≠ 0 →
      mcRecords Heff Cs rs us dts st = some recs → ∀ v ∈ recs, normSqV v = 1 := by
  induction dts with
  | nil =>
    intro st recs hψ hrun v hv
    unfold mcRecords at hrun
    injection hrun with h
    rw [← h] at hv
    simp at hv
  | cons dt rest ih =>
    intro st recs hψ hrun v hv
    unfold mcRecords at hrun
    cases hstep : mcStep Heff Cs rs us dt st with
    | none =>
      rw [hstep] at hrun
      simp at hrun
    | some st1 =>
      rw [hstep] at hrun
      rw [Option.map_eq_some'] at hrun
      obtain ⟨l, hl, hrec⟩ := hrun
      have hst1 : normSqV st1.psi ≠ 0 :=
        mcStep_psi_ne_zero Heff Cs rs us hus dt st st1 hψ hstep
      rw [← hrec] at hv
      rcases List.mem_cons.mp hv with h1 | h2
      · rw [h1]
        exact normSqV_normalizeV st1.psi hst1
      · exact ih st1 l hst1 hl v h2

/-! ### With no jump operators, a trajectory is pure Schrödinger evolution -/

theorem mcRecords_nil_ops {ι : Type} [Fintype ι] [DecidableEq ι] (H : Matrix ι ι ℂ)
    (rs us : ℕ → ℝ) (hH : H.IsHermitian) (hrs : ∀ j, 0 < rs j ∧ rs j < 1)
    (dts : List ℝ) :
    ∀ (ψ : ι → ℂ) (j : ℕ), normSqV ψ = 1 →
      mcRecords H [] rs us dts ⟨ψ, rs j, j⟩ = some (seRecords H dts ψ) := by
  induction dts with
  | nil =>
    intro ψ j _
    rfl
  | cons dt rest ih =>
    intro ψ j hψ1
    have hdet : normSqV (detStep H dt ψ) = 1 := by
      rw [detStep_normSqV H hH dt ψ, hψ1]
    have hstep : mcStep H ([] : List (Matrix ι ι ℂ)) rs us dt
        ⟨ψ, rs j, j⟩ = some ⟨detStep H dt ψ, rs j, j⟩ := by
      unfold mcStep
      rw [if_neg]
      rw [hdet]
      exact not_lt.mpr (le_of_lt (hrs j).2)
    unfold mcRecords
    rw [hstep]
    show Option.map (fun l => normalizeV (detStep H dt ψ) :: l)
        (mcRecords H [] rs us rest ⟨detStep H dt ψ, rs j, j⟩) =
      some (seRecords H (dt :: rest) ψ)
    rw [ih (detStep H dt ψ) j hdet]
    rw [Option.map_some']
    rw [normalizeV_of_normSq_one (detStep H dt ψ) hdet]
    rfl

/-! ### The jump fires at the first threshold crossing of `‖ψ‖²` -/

theorem detEvolve_nil {ι : Type} [Fintype ι] [DecidableEq ι] (Heff : Matrix ι ι ℂ)
    (ψ : ι → ℂ) : detEvolve Heff [] ψ = ψ := rfl

theorem detEvolve_cons {ι : Type} [Fintype ι] [DecidableEq ι] (Heff : Matrix ι ι ℂ) (dt : ℝ)
    (L : List ℝ) (ψ : ι → ℂ) :
    detEvolve Heff (dt :: L) ψ = detEvolve Heff L (detStep Heff dt ψ) := rfl

theorem mcStep_jump {ι : Type} [Fintype ι] [DecidableEq ι] (Heff : Matrix ι ι ℂ)
    (Cs : List (Matrix ι ι ℂ)) (rs us : ℕ → ℝ) (dt : ℝ)
    (ψ : ι → ℂ) (r : ℝ) (j : ℕ)
    (hc : normSqV (detStep Heff dt ψ) < r)
    (hw : 0 < (channelWeights Cs (detStep Heff dt ψ)).sum) :
    mcStep Heff Cs rs us dt ⟨ψ, r, j⟩ =
      some ⟨applyJump Cs (us j) (detStep Heff dt ψ), rs (j + 1), j + 1⟩ := by
  unfold mcStep
  rw [if_pos hc, if_pos hw]

theorem mcStep_nojump {ι : Type} [Fintype ι] [DecidableEq ι] (Heff : Matrix ι ι ℂ)
    (Cs : List (Matrix ι ι ℂ)) (rs us : ℕ → ℝ) (dt : ℝ)
    (ψ : ι → ℂ) (r : ℝ) (j : ℕ)
    (hc : ¬ normSqV (detStep Heff dt ψ) < r) :
    mcStep Heff Cs rs us dt ⟨ψ, r, j⟩ = some ⟨detStep Heff dt ψ, r, j⟩ := by
  unfold mcStep
  rw [if_neg hc]

theorem runStates_cons_some {ι : Type} [Fintype ι] [DecidableEq ι] (Heff : Matrix ι ι ℂ)
    (Cs : List (Matrix ι ι ℂ)) (rs us : ℕ → ℝ) (dt : ℝ)
    (L : List ℝ) (st st1 : McState ι)
    (h : mcStep Heff Cs rs us dt st = some st1) :
    runStates Heff Cs rs us (dt :: L) st = runStates Heff Cs rs us L st1 := by
  show (match mcStep Heff Cs rs us dt st with
    | none => none
    | some st2 => runStates Heff Cs rs us L st2) = runStates Heff Cs rs us L st1
  rw [h]

theorem mcRecords_cons_some {ι : Type} [Fintype ι] [DecidableEq ι] (Heff : Matrix ι ι ℂ)
    (Cs : List (Matrix ι ι ℂ)) (rs us : ℕ → ℝ) (dt : ℝ)
    (L : List ℝ) (st st1 : McState ι)
    (h : mcStep Heff Cs rs us dt st = some st1) :
    mcRecords Heff Cs rs us (dt :: L) st =
      (mcRecords Heff Cs rs us L st1).map fun l => normalizeV st1.psi :: l := by
  show (match mcStep Heff Cs rs us dt st with
    | none => none
    | some st2 =>
        (mcRecords Heff Cs rs us L st2).map fun l => normalizeV st2.psi :: l) =
    (mcRecords Heff Cs rs us L st1).map fun l => normalizeV st1.psi :: l
  rw [h]

/-- C4: per trajectory, between jumps the integrator holds one uniform random
threshold `r` and evolves the state deterministically under the effective
Hamiltonian while tracking `‖ψ(t)‖²`; the next jump fires at the first grid
step at which `‖ψ(t)‖²` falls below `r` (the search is bounded by the
integration step), at which point the categorical channel draw, the jump and
the renormalization happen and a fresh threshold is drawn. Formally: if the
deterministic evolution of `ψ` stays at or above the threshold for the first
`m` steps and falls below it at step `m+1`, then the integrator performs `m`
deterministic steps leaving the threshold and jump counter unchanged, and the
step `m+1` fires the jump. -/
theorem mc_first_crossing_jump {ι : Type} [Fintype ι] [DecidableEq ι] (Heff : Matrix ι ι ℂ)
    (Cs : List (Matrix ι ι ℂ)) (rs us : ℕ → ℝ) (dts : List ℝ)
    (ψ : ι → ℂ) (r : ℝ) (j m : ℕ) (hm : m < dts.length)
    (hpre : ∀ l, l < m → r ≤ normSqV (detEvolve Heff (dts.take (l + 1)) ψ))
    (hcross : normSqV (detEvolve Heff (dts.take (m + 1)) ψ) < r)
    (hW : 0 < (channelWeights Cs (detEvolve Heff (dts.take (m + 1)) ψ)).sum) :
    runStates Heff Cs rs us (dts.take m) ⟨ψ, r, j⟩ =
      some ⟨detEvolve Heff (dts.take m) ψ, r, j⟩ ∧
    mcStep Heff Cs rs us (dts.get ⟨m, hm⟩) ⟨detEvolve Heff (dts.take m) ψ, r, j⟩ =
      some ⟨applyJump Cs (us j) (detEvolve Heff (dts.take (m + 1)) ψ),
        rs (j + 1), j + 1⟩ := by
  induction m generalizing dts ψ with
  | zero =>
    cases dts with
    | nil => simp at hm
    | cons dt rest =>
      have hc : normSqV (detStep Heff dt ψ) < r := hcross
      have hw : 0 < (channelWeights Cs (detStep Heff dt ψ)).sum := hW
      exact ⟨rfl, mcStep_jump Heff Cs rs us dt ψ r j hc hw⟩
  | succ m ihm =>
    cases dts with
    | nil => simp at hm
    | cons dt rest =>
      have h0 : r ≤ normSqV (detStep Heff dt ψ) := hpre 0 (Nat.succ_pos m)
      have hstep := mcStep_nojump Heff Cs rs us dt ψ r j (not_lt.mpr h0)
      have hm2 : m < rest.length := by
        simp only [List.length_cons] at hm
        omega
      have ihm2 := ihm rest (detStep Heff dt ψ) hm2
        (fun l hl => hpre (l + 1) (Nat.succ_lt_succ hl)) hcross hW
      exact ⟨(runStates_cons_some Heff Cs rs us dt (rest.take m) ⟨ψ, r, j⟩
        ⟨detStep Heff dt ψ, r, j⟩ hstep).trans ihm2.1, ihm2.2⟩

/-- C1: every state recorded at an output time by a Monte Carlo wavefunction
trajectory has unit norm (to within the exactness of the model): the state is
renormalized immediately after each jump and at each output sample of the
deterministic evolution under the effective Hamiltonian. -/
theorem mc_records_unit_norm {ι : Type} [Fintype ι] [DecidableEq ι] (H : Matrix ι ι ℂ)
    (Cs : List (Matrix ι ι ℂ)) (ψ0 : ι → ℂ) (dts : List ℝ)
    (rs us : ℕ → ℝ) (recs : List (ι → ℂ)) (hψ : normSqV ψ0 ≠ 0)
    (hus : ∀ j, 0 ≤ us j ∧ us j < 1)
    (hrun : mcsolveTraj H Cs ψ0 dts rs us = some recs) :
    ∀ v ∈ recs, normSqV v = 1 :=
  mcRecords_norm (effectiveHamiltonian H Cs) Cs rs us hus dts ⟨ψ0, rs 0, 0⟩
    recs hψ hrun

/-- C2: with an empty jump-operator list the Monte Carlo wavefunction
integrator reduces to deterministic unitary Schrödinger propagation (the
`sesolve` call): the recorded trajectory equals the `sesolve` record list —
hence every observable's expectation values match — and the result does not
depend on the random streams, so all trajectories are identical. -/
theorem mc_no_jump_ops_eq_sesolve {ι : Type} [Fintype ι] [DecidableEq ι] (H : Matrix ι ι ℂ)
    (ψ0 : ι → ℂ) (dts : List ℝ) (rs us : ℕ → ℝ) (hH : H.IsHermitian)
    (hψ : normSqV ψ0 = 1) (hrs : ∀ j, 0 < rs j ∧ rs j < 1) :
    mcsolveTraj H [] ψ0 dts rs us = some (seRecords H dts ψ0) ∧
    ∀ O : Matrix ι ι ℂ,
      (mcsolveTraj H [] ψ0 dts rs us).map (List.map (expval O)) =
        some ((seRecords H dts ψ0).map (expval O)) := by
  have h1 : mcsolveTraj H [] ψ0 dts rs us = some (seRecords H dts ψ0) := by
    unfold mcsolveTraj
    rw [effectiveHamiltonian_nil]
    exact mcRecords_nil_ops H rs us hH hrs dts ψ0 0 hψ
  exact ⟨h1, fun O => by rw [h1, Option.map_some']⟩

/-- C3: at a jump time the integrator selects the channel by one categorical
draw with probability proportional to `⟨ψ|Ci†Ci|ψ⟩`: each channel weight
equals that quadratic form; the selected index is a valid channel index; the
uniform draw `u` selects channel `i` exactly when `u·W` lies in the i-th
cumulative-weight window, whose width is the i-th weight; and the state is
then replaced by `Ci ψ` renormalized to unit norm. -/
theorem mc_jump_channel_selection {ι : Type} [Fintype ι] [DecidableEq ι]
    (Cs : List (Matrix ι ι ℂ)) (ψ : ι → ℂ) (u : ℝ)
    (hu : 0 ≤ u ∧ u < 1) (hW : 0 < (channelWeights Cs ψ).sum) :
    (∀ C : Matrix ι ι ℂ,
      star ψ ⬝ᵥ (Cᴴ * C).mulVec ψ = (channelWeight C ψ : ℂ)) ∧
    selectChannel (channelWeights Cs ψ) u < Cs.length ∧
    (∀ i, i < Cs.length →
      (selectChannel (channelWeights Cs ψ) u = i ↔
        ((channelWeights Cs ψ).take i).sum ≤ u * (channelWeights Cs ψ).sum ∧
          u * (channelWeights Cs ψ).sum <
            ((channelWeights Cs ψ).take (i + 1)).sum)) ∧
    applyJump Cs u ψ =
      normalizeV ((Cs.getD (selectChannel (channelWeights Cs ψ) u) 0).mulVec ψ) := by
  have hnn := channelWeights_nonneg Cs ψ
  have ht : 0 ≤ u * (channelWeights Cs ψ).sum := mul_nonneg hu.1 (le_of_lt hW)
  have htlt : u * (channelWeights Cs ψ).sum < (channelWeights Cs ψ).sum := by
    nlinarith [hu.2, hW]
  have hlenW : (channelWeights Cs ψ).length = Cs.length := List.length_map Cs _
  refine ⟨fun C => channelWeight_eq_quadForm C ψ, ?_, ?_, rfl⟩
  · have hsel := selectFrom_lt_length (channelWeights Cs ψ)
      (u * (channelWeights Cs ψ).sum) hnn ht htlt
    rw [hlenW] at hsel
    exact hsel
  · intro i hi
    exact selectFrom_eq_iff (channelWeights Cs ψ) (u * (channelWeights Cs ψ).sum)
      i hnn ht (by rw [hlenW]; exact hi)

/-- C5: the effective Hamiltonian used for the deterministic, non-unitary
evolution between jumps equals `H − (i/2)·Σ_i Ci†Ci`; for the Doppler
notebook's input Hamiltonian and jump-operator list `Cs = [C0, Cmk, Cpk]` it
is `H − (i/2)(C0†C0 + Cmk†Cmk + Cpk†Cpk)`, derived once from `H` and the
list (the model computes it a single time, before the trajectory loop). -/
theorem effectiveHamiltonian_doppler :
    effectiveHamiltonian Doppler.H Doppler.Cs =
      Doppler.H - (Complex.I / 2) • Doppler.CdagCsum := by
  unfold effectiveHamiltonian Doppler.Cs Doppler.CdagCsum
  simp [add_assoc]

/-- C6: malformed input — mismatched matrix dimensions between `H`, the jump
operators, `ψ0` or the observables; a non-normalized `ψ0`; or a non-monotonic
time list — makes the integrator fail immediately with a descriptive
`DimensionError`/`ValidationError` surfaced to the caller before any
trajectory work begins: the result is an error, and it does not depend on
the trajectory-runner, so no trajectory is integrated and no partial output
is produced. -/
theorem mc_malformed_input_rejected {α : Type} (run1 run2 : Dims.MCInputs → α)
    (inp : Dims.MCInputs)
    (h : Dims.dimsOk inp = false ∨ Dims.normOk inp = false ∨
      Dims.timesOk inp = false) :
    (∃ msg, Dims.mcsolveGuarded run1 inp = Except.error msg) ∧
    Dims.mcsolveGuarded run1 inp = Dims.mcsolveGuarded run2 inp := by
  have hval : ∃ msg, Dims.validate inp = Except.error msg := by
    unfold Dims.validate
    by_cases h1 : Dims.dimsOk inp
    · by_cases h2 : Dims.normOk inp
      · by_cases h3 : Dims.timesOk inp
        · exfalso
          rcases h with h | h | h
          · rw [h] at h1
            simp at h1
          · rw [h] at h2
            simp at h2
          · rw [h] at h3
            simp at h3
        · rw [if_neg (not_not_intro h1), if_neg (not_not_intro h2), if_pos h3]
          exact ⟨_, rfl⟩
      · rw [if_neg (not_not_intro h1), if_pos h2]
        exact ⟨_, rfl⟩
    · rw [if_pos h1]
      exact ⟨_, rfl⟩
  obtain ⟨msg, hmsg⟩ := hval
  constructor
  · refine ⟨msg, ?_⟩
    unfold Dims.mcsolveGuarded
    rw [hmsg]
  · unfold Dims.mcsolveGuarded
    rw [hmsg]

/-- C9: in the Doppler notebook's `mcsolve` call, the Hamiltonian, the
observable `momentum**2`, every jump operator of `Cs`, and the initial state
`psi0` all carry the same tensor-product dims `[2, 2*nmax+1]`, with total
Hilbert-space dimension `202` for `nmax = 50`; consequently the
dimension-mismatch validation branch of the solver is unreachable for this
call, whatever the remaining (norm and time) input data are. -/
theorem doppler_dims_consistent (q : ℚ) (ts : List ℚ) :
    Dims.dimsOk ⟨Dims.HDims, Dims.psi0Dims,
      [Dims.C0Dims, Dims.CmkDims, Dims.CpkDims], [Dims.eOpDims], q, ts⟩ = true ∧
    Dims.HDims = [2, 2 * Doppler.nmax + 1] ∧
    Dims.psi0Dims = Dims.HDims ∧ Dims.eOpDims = Dims.HDims ∧
    Dims.HDims.prod = 202 ∧
    Dims.validate ⟨Dims.HDims, Dims.psi0Dims,
        [Dims.C0Dims, Dims.CmkDims, Dims.CpkDims], [Dims.eOpDims], q, ts⟩ ≠
      Except.error "DimensionError: mismatched matrix dimensions" := by
  refine ⟨rfl, rfl, rfl, rfl, rfl, ?_⟩
  unfold Dims.validate
  rw [if_neg (not_not_intro (by rfl))]
  split_ifs <;> simp

/-- C10: in the Rydberg notebook the interaction added to the Hamiltonian is
included only for nearest-neighbor site pairs: for every pair of sites with
`|i − j| ≥ 2` the contribution of the loop body to `H` is exactly zero — the
code truncates the displayed all-pairs van der Waals interaction to nearest
neighbors. -/
theorem rydberg_nearest_neighbor_only (i j : Fin Rydberg.Natoms)
    (h : 2 ≤ ((i : ℤ) - (j : ℤ)).natAbs) :
    Rydberg.interactionTerm j i = 0 := by
  unfold Rydberg.interactionTerm
  rw [if_neg]
  omega

/-! ### The Doppler notebook operators: Hermitian structure -/

theorem realSmul_isHermitian {ι : Type} [Fintype ι] [DecidableEq ι] (r : ℝ)
    {A : Matrix ι ι ℂ} (hA : A.IsHermitian) : (r • A).IsHermitian := by
  unfold Matrix.IsHermitian at hA ⊢
  rw [Matrix.conjTranspose_smul, star_trivial, hA]

namespace Doppler

theorem tensorOp_conjTranspose (A : Matrix (Fin 2) (Fin 2) ℂ)
    (B : Matrix (Fin pdim) (Fin pdim) ℂ) :
    (tensorOp A B)ᴴ = tensorOp Aᴴ Bᴴ := by
  ext p q
  simp [tensorOp, Matrix.conjTranspose_apply, mul_comm]

theorem tensorOp_mul (A A2 : Matrix (Fin 2) (Fin 2) ℂ)
    (B B2 : Matrix (Fin pdim) (Fin pdim) ℂ) :
    tensorOp A B * tensorOp A2 B2 = tensorOp (A * A2) (B * B2) := by
  ext p q
  simp only [Matrix.mul_apply, tensorOp]
  rw [Fintype.sum_prod_type, Finset.sum_mul_sum]
  exact Finset.sum_congr rfl fun a _ => Finset.sum_congr rfl fun b _ => by ring

theorem tensorOp_isHermitian {A : Matrix (Fin 2) (Fin 2) ℂ}
    {B : Matrix (Fin pdim) (Fin pdim) ℂ} (hA : A.IsHermitian)
    (hB : B.IsHermitian) : (tensorOp A B).IsHermitian := by
  unfold Matrix.IsHermitian at hA hB ⊢
  rw [tensorOp_conjTranspose, hA, hB]

theorem sigmax_isHermitian : sigmax.IsHermitian := by
  apply Matrix.IsHermitian.ext
  intro i j
  fin_cases i <;> fin_cases j <;> simp [sigmax]

theorem tunneling_isHermitian (N : ℕ) : (tunneling N).IsHermitian := by
  apply Matrix.IsHermitian.ext
  intro i j
  unfold tunneling
  by_cases h : (i : ℕ) + 1 = (j : ℕ) ∨ (j : ℕ) + 1 = (i : ℕ)
  · rw [if_pos (Or.symm h), if_pos h, star_one]
  · rw [if_neg (fun hc => h (Or.symm hc)), if_neg h, star_zero]

theorem charge_isHermitian (n : ℕ) : (charge n).IsHermitian := by
  apply Matrix.IsHermitian.ext
  intro i j
  unfold charge
  rcases eq_or_ne j i with h | h
  · subst h
    rw [Matrix.diagonal_apply_eq]
    simp [Complex.star_def, map_sub]
  · rw [Matrix.diagonal_apply_ne _ h, Matrix.diagonal_apply_ne _ (Ne.symm h),
      star_zero]

theorem projE_isHermitian : projE.IsHermitian := by
  apply Matrix.IsHermitian.ext
  intro i j
  fin_cases i <;> fin_cases j <;> simp [projE]

theorem momentum_isHermitian : momentum.IsHermitian :=
  tensorOp_isHermitian Matrix.isHermitian_one (charge_isHermitian nmax)

theorem coupling_isHermitian : coupling.IsHermitian :=
  tensorOp_isHermitian sigmax_isHermitian (tunneling_isHermitian pdim)

theorem Pe_isHermitian : Pe.IsHermitian :=
  tensorOp_isHermitian projE_isHermitian Matrix.isHermitian_one

theorem projE_mul_projE : projE * projE = projE := by
  ext i j
  fin_cases i <;> fin_cases j <;>
    simp [Matrix.mul_apply, projE, Fin.sum_univ_two]

theorem momentum_offdiag (a b : Fin 2 × Fin pdim) (hab : a ≠ b) :
    momentum a b = 0 := by
  unfold momentum tensorOp
  rcases eq_or_ne a.1 b.1 with h1 | h1
  · rcases eq_or_ne a.2 b.2 with h2 | h2
    · exfalso
      exact hab (Prod.ext h1 h2)
    · rw [show charge nmax a.2 b.2 = 0 from Matrix.diagonal_apply_ne _ h2,
        mul_zero]
  · rw [show (1 : Matrix (Fin 2) (Fin 2) ℂ) a.1 b.1 = 0 from
      Matrix.one_apply_ne h1, zero_mul]

end Doppler

/-- C7: the Hamiltonian built by the Doppler notebook,
`H = hbarOvermRb*(k*momentum)**2/2 + Omega/2*coupling − delta*Pe`, is
Hermitian — the kinetic term is built from the real diagonal `momentum`
operator, `coupling` is Hermitian, `Pe` is a projector, and the coefficients
are real — so the matrix passed to `mcsolve` satisfies the interface
requirement that `H` be a Hermitian operator. -/
theorem doppler_H_isHermitian :
    Doppler.H.IsHermitian ∧
    (∀ a b : Fin 2 × Fin Doppler.pdim, a ≠ b → Doppler.momentum a b = 0) ∧
    Doppler.Pe * Doppler.Pe = Doppler.Pe ∧
    Doppler.couplingᴴ = Doppler.coupling := by
  refine ⟨?_, Doppler.momentum_offdiag, ?_, Doppler.coupling_isHermitian⟩
  · unfold Doppler.H
    refine Matrix.IsHermitian.sub (Matrix.IsHermitian.add ?_ ?_) ?_
    · exact realSmul_isHermitian _
        ((realSmul_isHermitian _ Doppler.momentum_isHermitian).pow 2)
    · exact realSmul_isHermitian _ Doppler.coupling_isHermitian
    · exact realSmul_isHermitian _ Doppler.Pe_isHermitian
  · unfold Doppler.Pe
    rw [Doppler.tensorOp_mul, Doppler.projE_mul_projE, one_mul]

/-! ### The Doppler notebook jump operators: total scattering rate -/

namespace Doppler

theorem Gamma_nonneg : 0 ≤ Gamma := by
  unfold Gamma hbar mRb k
  positivity

theorem decay_inner : decayᴴ * decay = projE := by
  ext i j
  fin_cases i <;> fin_cases j <;>
    simp [Matrix.mul_apply, Matrix.conjTranspose_apply, decay, projE,
      Fin.sum_univ_two]

theorem C0_inner : C0ᴴ * C0 = (3 / 5 * Gamma) • tensorOp projE 1 := by
  unfold C0
  rw [Matrix.conjTranspose_smul, star_trivial, tensorOp_conjTranspose,
    Matrix.conjTranspose_one, Matrix.smul_mul, Matrix.mul_smul, smul_smul,
    tensorOp_mul, decay_inner, one_mul,
    Real.mul_self_sqrt (by nlinarith [Gamma_nonneg] : (0:ℝ) ≤ 3 / 5 * Gamma)]

theorem Cmk_inner :
    Cmkᴴ * Cmk = (1 / 5 * Gamma) • tensorOp projE (shiftUpᴴ * shiftUp) := by
  unfold Cmk
  rw [Matrix.conjTranspose_smul, star_trivial, tensorOp_conjTranspose,
    Matrix.smul_mul, Matrix.mul_smul, smul_smul, tensorOp_mul, decay_inner,
    Real.mul_self_sqrt (by nlinarith [Gamma_nonneg] : (0:ℝ) ≤ 1 / 5 * Gamma)]

theorem Cpk_inner :
    Cpkᴴ * Cpk = (1 / 5 * Gamma) • tensorOp projE (shiftDownᴴ * shiftDown) := by
  unfold Cpk
  rw [Matrix.conjTranspose_smul, star_trivial, tensorOp_conjTranspose,
    Matrix.smul_mul, Matrix.mul_smul, smul_smul, tensorOp_mul, decay_inner,
    Real.mul_self_sqrt (by nlinarith [Gamma_nonneg] : (0:ℝ) ≤ 1 / 5 * Gamma)]

theorem shiftUp_inner (p q : Fin pdim) :
    (shiftUpᴴ * shiftUp) p q = if p = q ∧ 1 ≤ (p : ℕ) then 1 else 0 := by
  simp only [Matrix.mul_apply, Matrix.conjTranspose_apply, shiftUp]
  have hterm : ∀ u : Fin pdim,
      star (if (u : ℕ) + 1 = (p : ℕ) then (1 : ℂ) else 0) *
        (if (u : ℕ) + 1 = (q : ℕ) then (1 : ℂ) else 0) =
      if (u : ℕ) + 1 = (p : ℕ) ∧ (u : ℕ) + 1 = (q : ℕ) then 1 else 0 := by
    intro u
    by_cases h2 : (u : ℕ) + 1 = (p : ℕ) <;>
      by_cases h3 : (u : ℕ) + 1 = (q : ℕ) <;> simp [h2, h3]
  rw [Finset.sum_congr rfl fun u _ => hterm u]
  by_cases hpq : p = q
  · subst hpq
    by_cases h1 : 1 ≤ (p : ℕ)
    · rw [if_pos ⟨rfl, h1⟩]
      have hplt : (p : ℕ) < pdim := p.isLt
      rw [Finset.sum_eq_single (⟨(p : ℕ) - 1, by omega⟩ : Fin pdim)]
      · rw [if_pos (by constructor <;> · show (p : ℕ) - 1 + 1 = (p : ℕ); omega)]
      · intro u _ hne
        rw [if_neg]
        rintro ⟨h2, _⟩
        exact hne (Fin.ext (show (u : ℕ) = (p : ℕ) - 1 by omega))
      · intro habs
        exact absurd (Finset.mem_univ _) habs
    · rw [if_neg (by tauto)]
      apply Finset.sum_eq_zero
      intro u _
      rw [if_neg]
      rintro ⟨h2, _⟩
      omega
  · rw [if_neg (by tauto)]
    apply Finset.sum_eq_zero
    intro u _
    rw [if_neg]
    rintro ⟨h2, h3⟩
    apply hpq
    apply Fin.ext
    omega

theorem shiftDown_inner (p q : Fin pdim) :
    (shiftDownᴴ * shiftDown) p q =
      if p = q ∧ (p : ℕ) < 2 * nmax then 1 else 0 := by
  simp only [Matrix.mul_apply, Matrix.conjTranspose_apply, shiftDown]
  have hterm : ∀ u : Fin pdim,
      star (if (p : ℕ) + 1 = (u : ℕ) then (1 : ℂ) else 0) *
        (if (q : ℕ) + 1 = (u : ℕ) then (1 : ℂ) else 0) =
      if (p : ℕ) + 1 = (u : ℕ) ∧ (q : ℕ) + 1 = (u : ℕ) then 1 else 0 := by
    intro u
    by_cases h2 : (p : ℕ) + 1 = (u : ℕ) <;>
      by_cases h3 : (q : ℕ) + 1 = (u : ℕ) <;> simp [h2, h3]
  rw [Finset.sum_congr rfl fun u _ => hterm u]
  have hpd : pdim = 2 * nmax + 1 := rfl
  by_cases hpq : p = q
  · subst hpq
    by_cases h1 : (p : ℕ) < 2 * nmax
    · rw [if_pos ⟨rfl, h1⟩]
      rw [Finset.sum_eq_single (⟨(p : ℕ) + 1, by omega⟩ : Fin pdim)]
      · rw [if_pos (by constructor <;> rfl)]
      · intro u _ hne
        rw [if_neg]
        rintro ⟨h2, _⟩
        exact hne (Fin.ext (show (u : ℕ) = (p : ℕ) + 1 by omega))
      · intro habs
        exact absurd (Finset.mem_univ _) habs
    · rw [if_neg (by tauto)]
      apply Finset.sum_eq_zero
      intro u _
      rw [if_neg]
      rintro ⟨h2, _⟩
      have hult : (u : ℕ) < pdim := u.isLt
      omega
  · rw [if_neg (by tauto)]
    apply Finset.sum_eq_zero
    intro u _
    rw [if_neg]
    rintro ⟨h2, h3⟩
    exact hpq (Fin.ext (by omega))

end Doppler

/-- C8: for the three jump operators of the Doppler notebook, the sum
`C0†C0 + Cmk†Cmk + Cpk†Cpk` equals `Γ·(|e⟩⟨e| ⊗ I)` at every interior
momentum index, but at the two extremal momentum indices of the truncated
window it equals only `(4/5)·Γ·|e⟩⟨e|` there, because each shift matrix
`qdiags(np.ones(2*nmax), ±1)` lacks one entry at the boundary: the total
scattering rate out of the excited state is exactly `Γ` except at the
momentum-window edges, where one directional channel is missing. -/
theorem doppler_CdagC_sum (s s' : Fin 2) (p p' : Fin Doppler.pdim) :
    Doppler.CdagCsum (s, p) (s', p') =
      if s = 1 ∧ s' = 1 ∧ p = p' then
        (if (p : ℕ) = 0 ∨ (p : ℕ) = 2 * Doppler.nmax
         then ((4 / 5 * Doppler.Gamma : ℝ) : ℂ)
         else ((Doppler.Gamma : ℝ) : ℂ))
      else 0 := by
  unfold Doppler.CdagCsum
  rw [Doppler.C0_inner, Doppler.Cmk_inner, Doppler.Cpk_inner]
  simp only [Matrix.add_apply, Matrix.smul_apply, Doppler.tensorOp,
    Matrix.one_apply, Doppler.shiftUp_inner, Doppler.shiftDown_inner,
    Doppler.projE, Complex.real_smul]
  have hplt : (p : ℕ) < 101 := p.isLt
  have hnm : 2 * Doppler.nmax = 100 := rfl
  by_cases hs : s = 1 ∧ s' = 1
  · rw [if_pos hs]
    by_cases hp : p = p'
    · subst hp
      rw [if_pos (show p = p from rfl),
        if_pos (show s = 1 ∧ s' = 1 ∧ p = p from ⟨hs.1, hs.2, rfl⟩)]
      by_cases h0 : (p : ℕ) = 0
      · rw [if_neg (show ¬(p = p ∧ 1 ≤ (p : ℕ)) from
            fun hc => absurd hc.2 (by omega)),
          if_pos (show p = p ∧ (p : ℕ) < 2 * Doppler.nmax from ⟨rfl, by omega⟩),
          if_pos (Or.inl h0)]
        push_cast
        ring
      · by_cases hN : (p : ℕ) = 2 * Doppler.nmax
        · rw [if_pos (show p = p ∧ 1 ≤ (p : ℕ) from ⟨rfl, by omega⟩),
            if_neg (show ¬(p = p ∧ (p : ℕ) < 2 * Doppler.nmax) from
              fun hc => absurd hc.2 (by omega)),
            if_pos (Or.inr hN)]
          push_cast
          ring
        · rw [if_pos (show p = p ∧ 1 ≤ (p : ℕ) from ⟨rfl, by omega⟩),
            if_pos (show p = p ∧ (p : ℕ) < 2 * Doppler.nmax from
              ⟨rfl, by omega⟩),
            if_neg (show ¬((p : ℕ) = 0 ∨ (p : ℕ) = 2 * Doppler.nmax) from
              fun hc => by rcases hc with hc | hc <;> omega)]
          push_cast
          ring
    · rw [if_neg hp,
        if_neg (show ¬(p = p' ∧ 1 ≤ (p : ℕ)) from fun hc => hp hc.1),
        if_neg (show ¬(p = p' ∧ (p : ℕ) < 2 * Doppler.nmax) from
          fun hc => hp hc.1),
        if_neg (show ¬(s = 1 ∧ s' = 1 ∧ p = p') from fun hc => hp hc.2.2)]
      ring
  · rw [if_neg hs,
      if_neg (show ¬(s = 1 ∧ s' = 1 ∧ p = p') from fun hc => hs ⟨hc.1, hc.2.1⟩)]
    ring

/-! ### Concrete witnesses -/

/-- Witness for C1: a concrete one-dimensional run records exactly one state,
of unit norm. -/
theorem mc_records_unit_norm_witness :
    normSqV wPsi ≠ 0 ∧ (∀ j, 0 ≤ wHalf j ∧ wHalf j < 1) ∧
    ∀ v ∈ [wPsi], normSqV v = 1 := by
  have hψ1 : normSqV wPsi = 1 := by simp [normSqV, wPsi]
  have hψ : normSqV wPsi ≠ 0 := by
    rw [hψ1]
    exact one_ne_zero
  have hus : ∀ j, 0 ≤ wHalf j ∧ wHalf j < 1 := fun j => by
    unfold wHalf
    norm_num
  have hdet : detStep wH 1 wPsi = wPsi := by
    unfold detStep wH
    rw [smul_zero, NormedSpace.exp_zero, Matrix.one_mulVec]
  have hstep : mcStep wH [] wHalf wHalf 1 ⟨wPsi, wHalf 0, 0⟩ =
      some ⟨wPsi, wHalf 0, 0⟩ := by
    have h2 := mcStep_nojump wH [] wHalf wHalf 1 wPsi (wHalf 0) 0
      (by rw [hdet, hψ1]; unfold wHalf; norm_num)
    rw [hdet] at h2
    exact h2
  have hrun : mcsolveTraj wH [] wPsi [1] wHalf wHalf = some [wPsi] := by
    unfold mcsolveTraj
    rw [effectiveHamiltonian_nil]
    rw [mcRecords_cons_some wH [] wHalf wHalf 1 [] ⟨wPsi, wHalf 0, 0⟩
      ⟨wPsi, wHalf 0, 0⟩ hstep]
    show (some ([] : List (Fin 1 → ℂ))).map (fun l => normalizeV wPsi :: l) =
      some [wPsi]
    rw [Option.map_some', normalizeV_of_normSq_one wPsi hψ1]
  exact ⟨hψ, hus,
    mc_records_unit_norm wH [] wPsi [1] wHalf wHalf [wPsi] hψ hus hrun⟩

/-- Witness for C2 at a concrete one-dimensional instance. -/
theorem mc_no_jump_ops_eq_sesolve_witness :
    wH.IsHermitian ∧ normSqV wPsi = 1 ∧ (∀ j, 0 < wHalf j ∧ wHalf j < 1) ∧
    mcsolveTraj wH [] wPsi [1] wHalf wHalf = some (seRecords wH [1] wPsi) := by
  have hH : wH.IsHermitian := by
    unfold wH
    exact Matrix.isHermitian_zero
  have hψ : normSqV wPsi = 1 := by simp [normSqV, wPsi]
  have hrs : ∀ j, 0 < wHalf j ∧ wHalf j < 1 := fun j => by
    unfold wHalf
    norm_num
  exact ⟨hH, hψ, hrs,
    (mc_no_jump_ops_eq_sesolve wH wPsi [1] wHalf wHalf hH hψ hrs).1⟩

/-- Witness for C3 at a concrete single-channel instance. -/
theorem mc_jump_channel_selection_witness :
    ((0:ℝ) ≤ 1/2 ∧ (1/2:ℝ) < 1) ∧ 0 < (channelWeights wCs wPsi).sum ∧
    ((∀ C : Matrix (Fin 1) (Fin 1) ℂ,
      star wPsi ⬝ᵥ (Cᴴ * C).mulVec wPsi = (channelWeight C wPsi : ℂ)) ∧
    selectChannel (channelWeights wCs wPsi) (1/2) < wCs.length ∧
    (∀ i, i < wCs.length →
      (selectChannel (channelWeights wCs wPsi) (1/2) = i ↔
        ((channelWeights wCs wPsi).take i).sum ≤
            1/2 * (channelWeights wCs wPsi).sum ∧
          1/2 * (channelWeights wCs wPsi).sum <
            ((channelWeights wCs wPsi).take (i + 1)).sum)) ∧
    applyJump wCs (1/2) wPsi =
      normalizeV ((wCs.getD (selectChannel (channelWeights wCs wPsi) (1/2))
        0).mulVec wPsi)) := by
  have hu : (0:ℝ) ≤ 1/2 ∧ (1/2:ℝ) < 1 := by norm_num
  have hW : 0 < (channelWeights wCs wPsi).sum := by
    simp [wCs, channelWeights, channelWeight, Matrix.one_mulVec, normSqV, wPsi]
  exact ⟨hu, hW, mc_jump_channel_selection wCs wPsi (1/2) hu hW⟩

/-- Witness for C4 at a concrete single-step threshold crossing. -/
theorem mc_first_crossing_jump_witness :
    ((0:ℕ) < ([(1:ℝ)] : List ℝ).length) ∧
    normSqV (detEvolve wH (([(1:ℝ)] : List ℝ).take (0 + 1)) wPsi) < 2 ∧
    0 < (channelWeights wCs
      (detEvolve wH (([(1:ℝ)] : List ℝ).take (0 + 1)) wPsi)).sum ∧
    (runStates wH wCs wHalf wHalf (([(1:ℝ)] : List ℝ).take 0) ⟨wPsi, 2, 0⟩ =
        some ⟨detEvolve wH (([(1:ℝ)] : List ℝ).take 0) wPsi, 2, 0⟩ ∧
      mcStep wH wCs wHalf wHalf (([(1:ℝ)] : List ℝ).get ⟨0, by norm_num⟩)
          ⟨detEvolve wH (([(1:ℝ)] : List ℝ).take 0) wPsi, 2, 0⟩ =
        some ⟨applyJump wCs (wHalf 0)
            (detEvolve wH (([(1:ℝ)] : List ℝ).take (0 + 1)) wPsi),
          wHalf (0 + 1), 0 + 1⟩) := by
  have hdet : detEvolve wH (([(1:ℝ)] : List ℝ).take (0 + 1)) wPsi = wPsi := by
    show detStep wH 1 wPsi = wPsi
    unfold detStep wH
    rw [smul_zero, NormedSpace.exp_zero, Matrix.one_mulVec]
  have hm : (0:ℕ) < ([(1:ℝ)] : List ℝ).length := by norm_num
  have hψ1 : normSqV wPsi = 1 := by simp [normSqV, wPsi]
  have hcross : normSqV (detEvolve wH (([(1:ℝ)] : List ℝ).take (0 + 1)) wPsi)
      < 2 := by
    rw [hdet, hψ1]
    norm_num
  have hW : 0 < (channelWeights wCs
      (detEvolve wH (([(1:ℝ)] : List ℝ).take (0 + 1)) wPsi)).sum := by
    rw [hdet]
    simp [wCs, channelWeights, channelWeight, Matrix.one_mulVec, normSqV, wPsi]
  exact ⟨hm, hcross, hW,
    mc_first_crossing_jump wH wCs wHalf wHalf [(1:ℝ)] wPsi 2 0 0 hm
      (fun l hl => absurd hl (Nat.not_lt_zero l)) hcross hW⟩

/-- Witness for C6 at a concrete dimension-mismatched input. -/
theorem mc_malformed_input_rejected_witness :
    (Dims.dimsOk wBadInp = false ∨ Dims.normOk wBadInp = false ∨
      Dims.timesOk wBadInp = false) ∧
    ((∃ msg, Dims.mcsolveGuarded wRun1 wBadInp = Except.error msg) ∧
      Dims.mcsolveGuarded wRun1 wBadInp = Dims.mcsolveGuarded wRun2 wBadInp) :=
  ⟨Or.inl (by decide),
    mc_malformed_input_rejected wRun1 wRun2 wBadInp (Or.inl (by decide))⟩

/-- Witness for C10: the pair of sites `(0, 2)`, at distance two, contributes
nothing to the Rydberg Hamiltonian. -/
theorem rydberg_nearest_neighbor_only_witness :
    2 ≤ (((⟨0, by decide⟩ : Fin Rydberg.Natoms) : ℤ) -
        ((⟨2, by decide⟩ : Fin Rydberg.Natoms) : ℤ)).natAbs ∧
    Rydberg.interactionTerm (⟨2, by decide⟩ : Fin Rydberg.Natoms)
      (⟨0, by decide⟩ : Fin Rydberg.Natoms) = 0 :=
  ⟨by decide, rydberg_nearest_neighbor_only ⟨0, by decide⟩ ⟨2, by decide⟩
    (by decide)⟩

end QMC
